import Mathlib

set_option maxHeartbeats 1000000
set_option maxRecDepth 4000

/-!
Verification of the data-link-layer simulator in `data.py`: CRC checksum
codec, framer, receiver logic, channel and the step-driven session driver.

Bitstrings (Python strings of '0'/'1') are modelled as `List Bool`,
Python ints as `Nat`/`Int` (with slice indices computed in `Int` so that
Python's negative-index slicing is reproduced exactly).  Fallible code
(`int('')` raising `ValueError`) is modelled with `Option`.
-/

/-- Pointwise XOR of two bitstrings (truncating at the shorter one). -/
def lxor (a b : List Bool) : List Bool := List.zipWith Bool.xor a b

/-- XOR the polynomial into the working buffer starting at its head.  This
models the inner loop `for j in range(n): temp[i+j] ^= polynomial[j]` at
offset `i = 0`; writes past the end of the buffer (an `IndexError` in
Python, unreachable in the program) are dropped. -/
def xorFrom : List Bool → List Bool → List Bool
  | t, [] => t
  | [], _ => []
  | b :: t, p :: ps => Bool.xor b p :: xorFrom t ps

/-- XOR the polynomial into the working buffer at offset `i`. -/
def xorPolyAt : List Bool → List Bool → Nat → List Bool
  | t, poly, 0 => xorFrom t poly
  | [], _, _ + 1 => []
  | b :: t, poly, i + 1 => b :: xorPolyAt t poly i

/-- One leading position of CRC long division:
`if temp[i] == 1: for j in range(n): temp[i+j] ^= polynomial[j]`. -/
def divStep (poly t : List Bool) (i : Nat) : List Bool :=
  if t.getD i false then xorPolyAt t poly i else t

/-- The CRC division loop over leading positions `0, 1, ..., m-1`. -/
def foldDiv (poly t : List Bool) (m : Nat) : List Bool :=
  (List.range m).foldl (divStep poly) t

/-- `generate_crc` from `data.py`: append `n-1` zero bits to the data,
run the division over the `len(data)` leading positions and return the
trailing `n-1` bits as the checksum. -/
def generate_crc (data_bits polynomial_bits : List Bool) : List Bool :=
  let n := polynomial_bits.length
  let temp_data := data_bits ++ List.replicate (n - 1) false
  (foldDiv polynomial_bits temp_data data_bits.length).drop data_bits.length

/-- Python slice `l[k:]` for an `Int` index `k` (possibly negative). -/
def pySliceFrom (l : List Bool) (k : Int) : List Bool :=
  if 0 ≤ k then l.drop k.toNat else l.drop ((l.length : Int) + k).toNat

/-- `check_crc` from `data.py`: run the division over
`len(received) - n + 1` leading positions and test the remainder slice
`temp[len(received)-n+1:]`.  Returns `none` exactly when the remainder
slice is the empty string, where Python's `int('')` would raise
`ValueError`; otherwise `some b` with `b` true iff `int(remainder) == 0`,
i.e. iff every remainder bit is 0. -/
def check_crc (received_data_with_crc polynomial_bits : List Bool) : Option Bool :=
  let n := polynomial_bits.length
  let start : Int := (received_data_with_crc.length : Int) - n + 1
  let temp_received := foldDiv polynomial_bits received_data_with_crc start.toNat
  let remainder := pySliceFrom temp_received start
  if remainder = [] then none else some (remainder.all fun b => !b)

/-- Single-bit corruption as performed by `simulate_channel_gui`:
flip the bit at `error_index`. -/
def flipBit (frame : List Bool) (error_index : Nat) : List Bool :=
  frame.set error_index (!(frame.getD error_index false))

/-- The default CRC polynomial `"1011"` of `DataLinkLayerNode`. -/
def pol4 : List Bool := [true, false, true, true]

/-! Basic length and pointwise lemmas for the division loop. -/

theorem length_xorFrom (t p : List Bool) : (xorFrom t p).length = t.length := by
  induction t generalizing p with
  | nil => cases p <;> rfl
  | cons b t ih =>
    cases p with
    | nil => rfl
    | cons q ps => simp [xorFrom, ih]

theorem length_xorPolyAt (t p : List Bool) (i : Nat) :
    (xorPolyAt t p i).length = t.length := by
  induction t generalizing i with
  | nil => cases i <;> simp [xorPolyAt, length_xorFrom]
  | cons b t ih =>
    cases i with
    | zero => simpa [xorPolyAt] using length_xorFrom (b :: t) p
    | succ j => simp [xorPolyAt, ih]

theorem length_divStep (p t : List Bool) (i : Nat) :
    (divStep p t i).length = t.length := by
  unfold divStep; split <;> simp [length_xorPolyAt]

theorem length_foldDiv (p t : List Bool) (m : Nat) :
    (foldDiv p t m).length = t.length := by
  induction m with
  | zero => rfl
  | succ m ih =>
    unfold foldDiv at *
    rw [List.range_succ, List.foldl_append, List.foldl_cons, List.foldl_nil,
      length_divStep, ih]

theorem foldDiv_succ (p t : List Bool) (m : Nat) :
    foldDiv p t (m + 1) = divStep p (foldDiv p t m) m := by
  unfold foldDiv
  rw [List.range_succ, List.foldl_append, List.foldl_cons, List.foldl_nil]

theorem getD_xorFrom (t p : List Bool) (k : Nat) (hk : k < t.length) :
    (xorFrom t p).getD k false = Bool.xor (t.getD k false) (p.getD k false) := by
  induction t generalizing p k with
  | nil => simp at hk
  | cons b t ih =>
    cases p with
    | nil => simp [xorFrom]
    | cons q ps =>
      cases k with
      | zero => simp [xorFrom]
      | succ j =>
        simp only [xorFrom, List.getD_cons_succ]
        exact ih ps j (by simpa using Nat.lt_of_succ_lt_succ hk)

theorem getD_xorPolyAt (t p : List Bool) (i k : Nat) (hk : k < t.length) :
    (xorPolyAt t p i).getD k false =
      if i ≤ k then Bool.xor (t.getD k false) (p.getD (k - i) false)
      else t.getD k false := by
  induction t generalizing i k with
  | nil => simp at hk
  | cons b t ih =>
    cases i with
    | zero =>
      simp only [xorPolyAt, Nat.zero_le, if_true, Nat.sub_zero]
      exact getD_xorFrom (b :: t) p k hk
    | succ j =>
      cases k with
      | zero => simp [xorPolyAt]
      | succ l =>
        simp only [xorPolyAt, List.getD_cons_succ, Nat.succ_sub_succ]
        rw [ih j l (by simpa using Nat.lt_of_succ_lt_succ hk)]
        by_cases h : j ≤ l
        · rw [if_pos h, if_pos (Nat.succ_le_succ h)]
        · rw [if_neg h, if_neg (fun hc => h (Nat.le_of_succ_le_succ hc))]

/-- Two bitstrings of equal length with equal `getD` entries are equal. -/
theorem eq_of_getD (A B : List Bool) (hlen : A.length = B.length)
    (h : ∀ k, k < A.length → A.getD k false = B.getD k false) : A = B := by
  induction A generalizing B with
  | nil => cases B with
    | nil => rfl
    | cons b B => simp at hlen
  | cons a A ih =>
    cases B with
    | nil => simp at hlen
    | cons b B =>
      have h0 := h 0 (by simp)
      simp only [List.getD_cons_zero] at h0
      subst h0
      have := ih B (by simpa using hlen)
        (fun k hk => by simpa using h (k + 1) (by simpa using Nat.succ_lt_succ hk))
      rw [this]

theorem getD_lxor (A B : List Bool) (hlen : A.length = B.length) (k : Nat) :
    (lxor A B).getD k false = Bool.xor (A.getD k false) (B.getD k false) := by
  induction A generalizing B k with
  | nil =>
    cases B with
    | nil => simp [lxor]
    | cons b B => simp at hlen
  | cons a A ih =>
    cases B with
    | nil => simp at hlen
    | cons b B =>
      cases k with
      | zero => simp [lxor]
      | succ j =>
        simp only [lxor, List.zipWith_cons_cons, List.getD_cons_succ]
        exact ih B (by simpa using hlen) j

theorem length_lxor (A B : List Bool) : (lxor A B).length = min A.length B.length := by
  simp [lxor]

/-- Each division position is a linear map on the buffer (over GF(2)):
`divStep` on a pointwise XOR is the pointwise XOR of the `divStep`s. -/
theorem divStep_lxor (p A B : List Bool) (hlen : A.length = B.length) (i : Nat) :
    divStep p (lxor A B) i = lxor (divStep p A i) (divStep p B i) := by
  have hlxor : (lxor A B).length = A.length := by rw [length_lxor, hlen, Nat.min_self]
  apply eq_of_getD
  · simp [length_divStep, length_lxor, hlxor, hlen]
  · intro k hk
    rw [length_divStep, hlxor] at hk
    have hkB : k < B.length := hlen ▸ hk
    have hgi : (lxor A B).getD i false = Bool.xor (A.getD i false) (B.getD i false) :=
      getD_lxor A B hlen i
    have hstep : ∀ C : List Bool, k < C.length →
        (divStep p C i).getD k false =
          if C.getD i false then
            (if i ≤ k then Bool.xor (C.getD k false) (p.getD (k - i) false)
             else C.getD k false)
          else C.getD k false := by
      intro C hkC
      unfold divStep
      split
      · exact getD_xorPolyAt C p i k hkC
      · rfl
    have hR : (lxor (divStep p A i) (divStep p B i)).getD k false =
        Bool.xor ((divStep p A i).getD k false) ((divStep p B i).getD k false) :=
      getD_lxor _ _ (by rw [length_divStep, length_divStep, hlen]) k
    rw [hstep _ (hlxor ▸ hk), hR, hstep A hk, hstep B hkB, hgi,
      getD_lxor A B hlen k]
    by_cases hik : i ≤ k
    · simp only [if_pos hik]
      cases A.getD i false <;> cases B.getD i false <;>
        cases A.getD k false <;> cases B.getD k false <;>
        cases p.getD (k - i) false <;> simp
    · simp only [if_neg hik]
      cases A.getD i false <;> cases B.getD i false <;>
        cases A.getD k false <;> cases B.getD k false <;> simp

/-- The whole division loop is linear over GF(2). -/
theorem foldDiv_lxor (p A B : List Bool) (hlen : A.length = B.length) (m : Nat) :
    foldDiv p (lxor A B) m = lxor (foldDiv p A m) (foldDiv p B m) := by
  induction m with
  | zero => rfl
  | succ m ih =>
    rw [foldDiv_succ, foldDiv_succ, foldDiv_succ, ih,
      divStep_lxor p _ _ (by rw [length_foldDiv, length_foldDiv, hlen]) m]

/-- If every scanned leading bit is 0, the division loop is the identity. -/
theorem foldDiv_of_zeros (p t : List Bool) (m : Nat)
    (h : ∀ j, j < m → t.getD j false = false) : foldDiv p t m = t := by
  induction m with
  | zero => rfl
  | succ m ih =>
    rw [foldDiv_succ, ih (fun j hj => h j (Nat.lt_succ_of_lt hj))]
    unfold divStep
    rw [h m (Nat.lt_succ_self m)]
    simp

theorem divStep_cons (p : List Bool) (b : Bool) (t : List Bool) (i : Nat) :
    divStep p (b :: t) (i + 1) = b :: divStep p t i := by
  unfold divStep
  rw [List.getD_cons_succ]
  split
  · rfl
  · rfl

theorem foldl_divStep_map_succ (p : List Bool) (is : List Nat) (b : Bool)
    (t : List Bool) :
    (is.map Nat.succ).foldl (divStep p) (b :: t) = b :: is.foldl (divStep p) t := by
  induction is generalizing t with
  | nil => rfl
  | cons i is ih => simp only [List.map_cons, List.foldl_cons, divStep_cons, ih]

/-- Shifting: a leading 0 bit passes through the division loop untouched. -/
theorem foldDiv_cons_false (p t : List Bool) (m : Nat) :
    foldDiv p (false :: t) (m + 1) = false :: foldDiv p t m := by
  unfold foldDiv
  rw [List.range_succ_eq_map, List.foldl_cons]
  have h0 : divStep p (false :: t) 0 = false :: t := by
    unfold divStep; simp
  rw [h0, foldl_divStep_map_succ]

/-! Auxiliary lxor lemmas. -/

theorem lxor_replicate_false_right (t : List Bool) (n : Nat) (h : t.length ≤ n) :
    lxor t (List.replicate n false) = t := by
  induction t generalizing n with
  | nil => simp [lxor]
  | cons b t ih =>
    cases n with
    | zero => simp at h
    | succ n =>
      simp only [List.replicate_succ, lxor, List.zipWith_cons_cons, Bool.xor_false]
      rw [show List.zipWith Bool.xor t (List.replicate n false) = lxor t _ from rfl,
        ih n (by simpa using h)]

theorem lxor_replicate_false_left (t : List Bool) (n : Nat) (h : t.length ≤ n) :
    lxor (List.replicate n false) t = t := by
  induction t generalizing n with
  | nil => simp [lxor]
  | cons b t ih =>
    cases n with
    | zero => simp at h
    | succ n =>
      simp only [List.replicate_succ, lxor, List.zipWith_cons_cons, Bool.false_xor]
      rw [show List.zipWith Bool.xor (List.replicate n false) t = lxor _ t from rfl,
        ih n (by simpa using h)]

theorem lxor_self (t : List Bool) : lxor t t = List.replicate t.length false := by
  induction t with
  | nil => rfl
  | cons b t ih =>
    simp only [lxor, List.zipWith_cons_cons, Bool.xor_self, List.length_cons,
      List.replicate_succ]
    rw [show List.zipWith Bool.xor t t = lxor t t from rfl, ih]

theorem drop_lxor (n : Nat) (A B : List Bool) :
    (lxor A B).drop n = lxor (A.drop n) (B.drop n) := by
  induction n generalizing A B with
  | zero => rfl
  | succ n ih =>
    cases A with
    | nil => simp [lxor]
    | cons a A =>
      cases B with
      | nil => simp [lxor]
      | cons b B =>
        simp only [lxor, List.zipWith_cons_cons, List.drop_succ_cons]
        exact ih A B

theorem getD_replicate_false (n k : Nat) :
    (List.replicate n false).getD k false = false := by
  induction n generalizing k with
  | zero => simp
  | succ n ih => cases k <;> simp [List.replicate_succ, ih]

theorem getD_append_left (l l2 : List Bool) (j : Nat) (h : j < l.length) :
    (l ++ l2).getD j false = l.getD j false := by
  induction l generalizing j with
  | nil => simp at h
  | cons a l ih =>
    cases j with
    | zero => rfl
    | succ j => simpa using ih j (by simpa using Nat.lt_of_succ_lt_succ h)

theorem pySliceFrom_natCast (l : List Bool) (k : Nat) :
    pySliceFrom l (k : Int) = l.drop k := by
  unfold pySliceFrom
  rw [if_pos (Int.natCast_nonneg k)]
  simp

/-- The CRC round-trip: appending `generate_crc`'s checksum to the payload
always passes `check_crc` under the same polynomial of length at least 2.
Proved via GF(2)-linearity of the division loop: the received word
`P ++ R` differs from generation's working buffer `P ++ 0^(n-1)` only in
positions never scanned as leading positions, so the two runs make the
same decisions and the final tail is `R XOR R = 0`. -/
theorem crc_roundtrip (P K : List Bool) (hK : 2 ≤ K.length) :
    check_crc (P ++ generate_crc P K) K = some true := by
  have hGlen : (generate_crc P K).length = K.length - 1 := by
    unfold generate_crc
    rw [List.length_drop, length_foldDiv, List.length_append, List.length_replicate]
    omega
  set R := generate_crc P K with hRdef
  have hrecv : (P ++ R).length = P.length + (K.length - 1) := by
    rw [List.length_append, hGlen]
  have hstart : ((P ++ R).length : Int) - (K.length : Int) + 1 = (P.length : Int) := by
    rw [hrecv]; omega
  have hG0 : P ++ R =
      lxor (P ++ List.replicate (K.length - 1) false)
           (List.replicate P.length false ++ R) := by
    rw [lxor, List.zipWith_append _ _ _ _ _ (by rw [List.length_replicate])]
    rw [show List.zipWith Bool.xor P (List.replicate P.length false) =
          lxor P (List.replicate P.length false) from rfl,
        show List.zipWith Bool.xor (List.replicate (K.length - 1) false) R =
          lxor (List.replicate (K.length - 1) false) R from rfl,
        lxor_replicate_false_right P P.length le_rfl,
        lxor_replicate_false_left R (K.length - 1) (by rw [hGlen])]
  have hzeros : foldDiv K (List.replicate P.length false ++ R) P.length =
      List.replicate P.length false ++ R := by
    apply foldDiv_of_zeros
    intro j hj
    rw [getD_append_left _ _ j (by simpa using hj), getD_replicate_false]
  have hmain : foldDiv K (P ++ R) P.length =
      lxor (foldDiv K (P ++ List.replicate (K.length - 1) false) P.length)
           (List.replicate P.length false ++ R) := by
    rw [hG0, foldDiv_lxor K _ _ (by simp [hGlen]) P.length, hzeros]
  have hdropG : (foldDiv K (P ++ List.replicate (K.length - 1) false)
      P.length).drop P.length = R := rfl
  have hdropZ : (List.replicate P.length false ++ R).drop P.length = R := by
    simp
  simp only [check_crc]
  rw [hstart, Int.toNat_natCast, hmain, pySliceFrom_natCast, drop_lxor,
    hdropG, hdropZ, lxor_self]
  rw [if_neg (show List.replicate R.length false ≠ [] from fun hcon => by
    have hlencon := congrArg List.length hcon
    simp only [List.length_replicate, List.length_nil] at hlencon
    omega)]
  simp

/-! Single-bit-error analysis for the default polynomial `1011`.
By linearity, the remainder of a flipped frame is the remainder of the
original frame XOR the remainder of a unit vector; we compute the
remainder of every unit vector explicitly. -/

/-- The bitstring of length `L` whose only set bit is at index `i`. -/
def unitVec : Nat → Nat → List Bool
  | 0, _ => []
  | L + 1, 0 => true :: List.replicate L false
  | L + 1, i + 1 => false :: unitVec L i

theorem length_unitVec (L i : Nat) : (unitVec L i).length = L := by
  induction L generalizing i with
  | zero => rfl
  | succ L ih => cases i <;> simp [unitVec, ih]

theorem getD_unitVec (L i k : Nat) (hk : k < L) :
    (unitVec L i).getD k false = decide (k = i) := by
  induction L generalizing i k with
  | zero => simp at hk
  | succ L ih =>
    cases i with
    | zero =>
      cases k with
      | zero => simp [unitVec]
      | succ l => simp [unitVec, getD_replicate_false]
    | succ j =>
      cases k with
      | zero => simp [unitVec]
      | succ l =>
        simp only [unitVec, List.getD_cons_succ]
        rw [ih j l (by omega)]
        simp

theorem flipBit_eq_lxor (F : List Bool) (i : Nat) (h : i < F.length) :
    flipBit F i = lxor F (unitVec F.length i) := by
  induction F generalizing i with
  | nil => simp at h
  | cons b t ih =>
    cases i with
    | zero =>
      show (b :: t).set 0 (!b) = lxor (b :: t) (true :: List.replicate t.length false)
      simp only [List.set_cons_zero, lxor, List.zipWith_cons_cons, Bool.xor_true]
      rw [show List.zipWith Bool.xor t (List.replicate t.length false) =
        lxor t (List.replicate t.length false) from rfl]
      rw [lxor_replicate_false_right t t.length le_rfl]
    | succ j =>
      show (b :: t).set (j + 1) (!(t.getD j false)) =
        lxor (b :: t) (false :: unitVec t.length j)
      simp only [List.set_cons_succ, lxor, List.zipWith_cons_cons, Bool.xor_false]
      rw [show List.zipWith Bool.xor t (unitVec t.length j) =
        lxor t (unitVec t.length j) from rfl]
      rw [← ih j (by simpa using Nat.lt_of_succ_lt_succ h)]
      rfl

theorem flipBit_length (F : List Bool) (i : Nat) : (flipBit F i).length = F.length := by
  simp [flipBit]

theorem flipBit_oob (F : List Bool) (i : Nat) (h : F.length ≤ i) : flipBit F i = F := by
  unfold flipBit
  induction F generalizing i with
  | nil => rfl
  | cons b t ih =>
    cases i with
    | zero => simp at h
    | succ j => simp only [List.set_cons_succ, List.getD_cons_succ]
                rw [ih j (by simpa using h)]

/-- The first division step on a buffer with a set leading bit, for the
polynomial `1011`. -/
theorem foldDiv_pol4_cons_true (t : List Bool) (m : Nat) :
    foldDiv pol4 (true :: t) (m + 1) =
      false :: foldDiv pol4 (xorFrom t [false, true, true]) m := by
  unfold foldDiv
  rw [List.range_succ_eq_map, List.foldl_cons]
  have h0 : divStep pol4 (true :: t) 0 =
      false :: xorFrom t [false, true, true] := by
    unfold divStep
    rw [if_pos (by rfl)]
    rfl
  rw [h0, foldl_divStep_map_succ]

/-- The remainder (last three working-buffer bits) the `check_crc` loop
computes for a unit vector of length `L` under the polynomial `1011`. -/
def crcRem (L i : Nat) : List Bool :=
  (foldDiv pol4 (unitVec L i) (L - 3)).drop (L - 3)

theorem crcRem_shift (L i : Nat) (hL : 3 ≤ L) :
    crcRem (L + 1) (i + 1) = crcRem L i := by
  obtain ⟨m, rfl⟩ : ∃ m, L = m + 3 := ⟨L - 3, by omega⟩
  show (foldDiv pol4 (false :: unitVec (m + 3) i) (m + 3 + 1 - 3)).drop (m + 3 + 1 - 3)
    = crcRem (m + 3) i
  have harith : m + 3 + 1 - 3 = (m + 3 - 3) + 1 := by omega
  rw [harith, foldDiv_cons_false, List.drop_succ_cons]
  rfl

theorem xorFrom_replicate_false (p : List Bool) (n : Nat) (h : p.length ≤ n) :
    xorFrom (List.replicate n false) p = p ++ List.replicate (n - p.length) false := by
  induction p generalizing n with
  | nil => simp [xorFrom]
  | cons q ps ih =>
    cases n with
    | zero => simp at h
    | succ n2 =>
      rw [List.replicate_succ]
      show Bool.xor false q :: xorFrom (List.replicate n2 false) ps = _
      rw [Bool.false_xor, ih n2 (by simpa using h)]
      simp [Nat.succ_sub_succ]

theorem getD_drop (l : List Bool) (d k : Nat) :
    (l.drop d).getD k false = l.getD (d + k) false := by
  induction l generalizing d with
  | nil => simp
  | cons a l ih =>
    cases d with
    | zero => simp
    | succ d2 =>
      rw [List.drop_succ_cons, ih d2, show d2 + 1 + k = (d2 + k) + 1 from by omega,
        List.getD_cons_succ]

/-- Remainder recurrence for unit vectors under `1011`: one division step
turns the leading unit bit into bits at offsets 2 and 3, i.e. the XOR of
two shorter unit-vector problems (`x^(L-1) = x * x^(L-2) ≡ ...`). -/
theorem crcRem_rec (m : Nat) :
    crcRem (m + 6) 0 = lxor (crcRem (m + 4) 0) (crcRem (m + 3) 0) := by
  have hxf : xorFrom (List.replicate (m + 5) false) [false, true, true] =
      false :: true :: true :: List.replicate (m + 2) false := by
    rw [xorFrom_replicate_false _ _ (by simp)]
    simp [show m + 5 - 3 = m + 2 from by omega]
  have hv : lxor (unitVec (m + 5) 1) (unitVec (m + 5) 2) =
      false :: true :: true :: List.replicate (m + 2) false := by
    show lxor (false :: true :: List.replicate (m + 3) false)
        (false :: false :: true :: List.replicate (m + 2) false) = _
    simp only [lxor, List.zipWith_cons_cons, Bool.xor_false, Bool.false_xor,
      Bool.xor_self]
    rw [List.replicate_succ, List.zipWith_cons_cons, Bool.false_xor]
    rw [show List.zipWith Bool.xor (List.replicate (m + 2) false)
          (List.replicate (m + 2) false) =
        lxor (List.replicate (m + 2) false) (List.replicate (m + 2) false) from rfl,
      lxor_replicate_false_left _ _ (by simp)]
  have hfold : foldDiv pol4 (unitVec (m + 6) 0) (m + 3) =
      false :: lxor (foldDiv pol4 (unitVec (m + 5) 1) (m + 2))
                    (foldDiv pol4 (unitVec (m + 5) 2) (m + 2)) := by
    show foldDiv pol4 (true :: List.replicate (m + 5) false) (m + 2 + 1) = _
    rw [foldDiv_pol4_cons_true, hxf, ← hv,
      foldDiv_lxor pol4 _ _ (by rw [length_unitVec, length_unitVec]) (m + 2)]
  have hu1 : foldDiv pol4 (unitVec (m + 5) 1) (m + 2) =
      false :: foldDiv pol4 (unitVec (m + 4) 0) (m + 1) := by
    show foldDiv pol4 (false :: unitVec (m + 4) 0) (m + 1 + 1) = _
    rw [foldDiv_cons_false]
  have hu2 : foldDiv pol4 (unitVec (m + 5) 2) (m + 2) =
      false :: false :: foldDiv pol4 (unitVec (m + 3) 0) m := by
    show foldDiv pol4 (false :: unitVec (m + 4) 1) (m + 1 + 1) = _
    rw [foldDiv_cons_false]
    show false :: foldDiv pol4 (false :: unitVec (m + 3) 0) (m + 1) = _
    rw [foldDiv_cons_false]
  unfold crcRem
  rw [show m + 6 - 3 = m + 3 from by omega, hfold, hu1, hu2]
  rw [show (m + 3 : Nat) = (m + 2) + 1 from by omega, List.drop_succ_cons]
  rw [show lxor (false :: foldDiv pol4 (unitVec (m + 4) 0) (m + 1))
        (false :: false :: foldDiv pol4 (unitVec (m + 3) 0) m) =
      false :: lxor (foldDiv pol4 (unitVec (m + 4) 0) (m + 1))
        (false :: foldDiv pol4 (unitVec (m + 3) 0) m) from by
    simp [lxor, List.zipWith_cons_cons]]
  rw [show (m + 2 : Nat) = (m + 1) + 1 from by omega, List.drop_succ_cons,
    drop_lxor, List.drop_succ_cons]
  simp only [show m + 4 - 3 = m + 1 from by omega,
    show m + 1 + 1 + 1 - 3 = m from by omega,
    show m + 1 + 1 + 1 = m + 3 from by omega]

theorem crcRem_base3 : crcRem 3 0 = [true, false, false] := by decide

theorem crcRem_base4 : crcRem 4 0 = [false, true, true] := by decide

theorem crcRem_base5 : crcRem 5 0 = [true, true, false] := by decide

/-- The seven-cycle of remainders of `x^k` modulo `x^3 + x + 1`. -/
def crcPat (k : Nat) : List Bool :=
  [[true, false, false], [false, true, true], [true, true, false],
   [true, true, true], [true, false, true], [false, false, true],
   [false, true, false]].getD (k % 7) []

theorem crcPat_rec (j : Nat) : crcPat (j + 3) = lxor (crcPat (j + 1)) (crcPat j) := by
  have h7 : j % 7 < 7 := Nat.mod_lt _ (by omega)
  have e3 : (j + 3) % 7 = (j % 7 + 3) % 7 := by omega
  have e1 : (j + 1) % 7 = (j % 7 + 1) % 7 := by omega
  unfold crcPat
  rw [e3, e1]
  set r := j % 7 with hr
  interval_cases r <;> decide

theorem crcRem_eq_crcPat (K : Nat) : crcRem (K + 3) 0 = crcPat K := by
  induction K using Nat.strong_induction_on with
  | _ K ih =>
    rcases K with _ | _ | _ | j
    · exact crcRem_base3
    · exact crcRem_base4
    · exact crcRem_base5
    · rw [show j + 3 + 3 = j + 6 from by omega, crcRem_rec j,
        show j + 4 = (j + 1) + 3 from by omega, ih (j + 1) (by omega),
        ih j (by omega)]
      exact (crcPat_rec j).symm

theorem crcPat_ne_zero (K : Nat) : crcPat K ≠ List.replicate 3 false := by
  have h7 : K % 7 < 7 := Nat.mod_lt _ (by omega)
  unfold crcPat
  set r := K % 7 with hr
  interval_cases r <;> decide

theorem crcRem_shift_iter (i : Nat) : ∀ L, 3 + i ≤ L → crcRem L i = crcRem (L - i) 0 := by
  induction i with
  | zero => intro L h; simp
  | succ j ih =>
    intro L h
    obtain ⟨L2, rfl⟩ : ∃ L2, L = L2 + 1 := ⟨L - 1, by omega⟩
    rw [crcRem_shift L2 j (by omega), ih L2 (by omega)]
    congr 1
    omega

/-- For the polynomial `1011`, no unit vector of length at least 3 leaves an
all-zero remainder: single-bit errors always disturb the checksum. -/
theorem crcRem_ne_zero (L i : Nat) (hL : 3 ≤ L) (hi : i < L) :
    crcRem L i ≠ List.replicate 3 false := by
  by_cases hcase : 3 + i ≤ L
  · rw [crcRem_shift_iter i L hcase]
    obtain ⟨K, hK⟩ : ∃ K, L - i = K + 3 := ⟨L - i - 3, by omega⟩
    rw [hK, crcRem_eq_crcPat K]
    exact crcPat_ne_zero K
  · intro hcon
    have huntouched : foldDiv pol4 (unitVec L i) (L - 3) = unitVec L i := by
      apply foldDiv_of_zeros
      intro j hj
      rw [getD_unitVec L i j (by omega)]
      simp only [decide_eq_false_iff_not]
      omega
    unfold crcRem at hcon
    rw [huntouched] at hcon
    have h1 : ((unitVec L i).drop (L - 3)).getD (i - (L - 3)) false =
        (List.replicate 3 false).getD (i - (L - 3)) false := by rw [hcon]
    rw [getD_drop, getD_replicate_false,
      show L - 3 + (i - (L - 3)) = i from by omega, getD_unitVec L i i hi] at h1
    simp at h1

theorem all_false_eq_replicate (l : List Bool) (h : l.all (fun b => !b) = true) :
    l = List.replicate l.length false := by
  induction l with
  | nil => rfl
  | cons b t ih =>
    simp only [List.all_cons, Bool.and_eq_true] at h
    obtain ⟨hb, ht⟩ := h
    cases b
    · conv_lhs => rw [ih ht]
      rw [List.length_cons, List.replicate_succ]
    · simp at hb

/-- For frames of length at least 3, `check_crc` under `1011` reduces to the
all-zero test on the three-bit remainder of the division loop. -/
theorem check_crc_pol4 (F : List Bool) (hF : 3 ≤ F.length) :
    check_crc F pol4 =
      some (((foldDiv pol4 F (F.length - 3)).drop (F.length - 3)).all fun b => !b) := by
  simp only [check_crc]
  rw [show pol4.length = 4 from rfl]
  have h1 : (F.length : Int) - (4 : Nat) + 1 = ((F.length - 3 : Nat) : Int) := by
    push_cast
    omega
  rw [h1, Int.toNat_natCast, pySliceFrom_natCast]
  have hlen : ((foldDiv pol4 F (F.length - 3)).drop (F.length - 3)).length = 3 := by
    rw [List.length_drop, length_foldDiv]
    omega
  rw [if_neg (fun hcon => by rw [hcon] at hlen; simp at hlen)]

/-- Single-bit-flip detection for the default polynomial `1011` on frames of
length at least 3: by linearity the flipped remainder is the valid frame's
all-zero remainder XOR a unit vector's remainder, and the latter is never
zero. -/
theorem singleflip_not_crc (F : List Bool) (i : Nat) (hF : 3 ≤ F.length)
    (hi : i < F.length) (hok : check_crc F pol4 = some true) :
    check_crc (flipBit F i) pol4 = some false := by
  have hLflip : (flipBit F i).length = F.length := flipBit_length F i
  rw [check_crc_pol4 F hF] at hok
  have hallF : ((foldDiv pol4 F (F.length - 3)).drop (F.length - 3)).all
      (fun b => !b) = true := by
    simpa using hok
  have hremFlen : ((foldDiv pol4 F (F.length - 3)).drop (F.length - 3)).length = 3 := by
    rw [List.length_drop, length_foldDiv]
    omega
  have hremF : (foldDiv pol4 F (F.length - 3)).drop (F.length - 3) =
      List.replicate 3 false := by
    have h2 := all_false_eq_replicate _ hallF
    rw [hremFlen] at h2
    exact h2
  rw [check_crc_pol4 (flipBit F i) (by rw [hLflip]; exact hF), hLflip]
  have hfold : foldDiv pol4 (flipBit F i) (F.length - 3) =
      lxor (foldDiv pol4 F (F.length - 3))
           (foldDiv pol4 (unitVec F.length i) (F.length - 3)) := by
    rw [flipBit_eq_lxor F i hi, foldDiv_lxor pol4 _ _ (by rw [length_unitVec])]
  rw [hfold, drop_lxor, hremF,
    show (foldDiv pol4 (unitVec F.length i) (F.length - 3)).drop (F.length - 3) =
      crcRem F.length i from rfl]
  have hcrclen : (crcRem F.length i).length = 3 := by
    unfold crcRem
    rw [List.length_drop, length_foldDiv, length_unitVec]
    omega
  rw [lxor_replicate_false_left _ _ (by rw [hcrclen])]
  have hne := crcRem_ne_zero F.length i hF hi
  cases hall : (crcRem F.length i).all (fun b => !b)
  · rfl
  · have h2 := all_false_eq_replicate _ hall
    rw [hcrclen] at h2
    exact absurd h2 hne

/-- Claim C1: checksum round-trip.  For every payload bitstring `P` and
polynomial bitstring `K` with `len(K) >= 2`, verifying `P ++
generate_crc(P, K)` with `check_crc` under the same `K` returns true. -/
theorem c1_checksum_roundtrip (P K : List Bool) (hK : 2 ≤ K.length) :
    check_crc (P ++ generate_crc P K) K = some true :=
  crc_roundtrip P K hK

/-- Witness for claim C1 at the concrete payload `101` and polynomial `1011`. -/
theorem c1_checksum_roundtrip_witness :
    check_crc ([true, false, true] ++ generate_crc [true, false, true] pol4) pol4 =
      some true :=
  c1_checksum_roundtrip [true, false, true] pol4 (by decide)

/-- Claim C2 counterexample: the two-bit frame `00` passes `check_crc` under
the default polynomial `1011`, and so does the frame obtained by flipping
its bit at index 0 (the remainder slice `frame[-1:]` ignores the first bit
of such short frames), so the flip is NOT detected. -/
theorem c2_single_bit_flip_counterexample :
    check_crc [false, false] pol4 = some true ∧
    check_crc (flipBit [false, false] 0) pol4 = some true := by
  decide

/-- Claim C2 (amended): single-bit-flip detection holds for the default
polynomial `1011` on every frame of length at least 3 (at least the CRC
width): if `check_crc` accepts `F`, it rejects `F` with any single bit
flipped.  Frames shorter than 3 bits can evade detection. -/
theorem c2_single_bit_flip_detection (F : List Bool) (i : Nat) (h3 : 3 ≤ F.length)
    (hi : i < F.length) (hok : check_crc F pol4 = some true) :
    check_crc (flipBit F i) pol4 = some false :=
  singleflip_not_crc F i h3 hi hok

/-- Witness for claim C2 at the concrete valid frame `000` and index 0. -/
theorem c2_single_bit_flip_detection_witness :
    check_crc (flipBit [false, false, false] 0) pol4 = some false :=
  c2_single_bit_flip_detection [false, false, false] 0 (by decide) (by decide)
    (by decide)

/-! Framing (`frame_data` / `unframe_data`) and the receiver node. -/

/-- Binary digits of `n`, least significant first (empty for 0); the fuel
argument (`n` itself suffices, since the argument at least halves each
step) makes the definition structurally recursive. -/
def natBitsRevAux : Nat → Nat → List Bool
  | 0, _ => []
  | fuel + 1, n => if n = 0 then [] else decide (n % 2 = 1) :: natBitsRevAux fuel (n / 2)

/-- Python `bin(n)[2:]`: minimal binary representation, `"0"` for zero. -/
def pyBin (n : Nat) : List Bool :=
  if n = 0 then [false] else (natBitsRevAux n n).reverse

/-- Python `str.zfill(w)`: left-pad with zeros to width `w`. -/
def zfill (w : Nat) (l : List Bool) : List Bool :=
  List.replicate (w - l.length) false ++ l

/-- Python `format(n, '08b')`. -/
def format08b (n : Nat) : List Bool := zfill 8 (pyBin n)

/-- Python `int(bits, 2)` on a bitstring. -/
def bitsToNat (l : List Bool) : Nat :=
  l.foldl (fun acc b => 2 * acc + (if b then 1 else 0)) 0

/-- The byte-decoding loop of `unframe_data`:
`for i in range(0, len(data_bits), 8): data += chr(int(data_bits[i:i+8], 2))`.
Fuel (the list length suffices, each chunk consumes at least one bit) makes
it structural. -/
def bitsToCharsAux : Nat → List Bool → List Char
  | 0, _ => []
  | _, [] => []
  | fuel + 1, b :: rest =>
      Char.ofNat (bitsToNat (b :: rest.take 7)) :: bitsToCharsAux fuel (rest.drop 7)

def bitsToChars (l : List Bool) : List Char := bitsToCharsAux l.length l

/-- Python slice `l[2:stop]` for an `Int` stop index (possibly negative),
as used for `frame[2:-len(polynomial)+1]`. -/
def pySliceData (l : List Bool) (stop : Int) : List Bool :=
  (l.take (if 0 ≤ stop then stop.toNat else ((l.length : Int) + stop).toNat)).drop 2

/-- Python `''.join(format(ord(char), '08b') for char in data)`. -/
def str_to_bits (data : String) : List Bool :=
  data.data.foldr (fun c acc => format08b c.toNat ++ acc) []

/-- `DataLinkLayerNode.frame_data`: 2-bit sequence field (`seq % 4`),
8-bit-per-character data bits, and the CRC of that payload appended. -/
def frame_data (polynomial : List Bool) (data : String) (sequence_number : Nat) :
    List Bool :=
  let seq_num_binary := zfill 2 (pyBin (sequence_number % 4))
  let data_bits := str_to_bits data
  let frame_payload := seq_num_binary ++ data_bits
  frame_payload ++ generate_crc frame_payload polynomial

/-- `DataLinkLayerNode.unframe_data`.  Result `none` models an uncaught
exception inside `check_crc` (unreachable for polynomials of length ≥ 2);
otherwise the Python triple `(sequence_number, data, is_corrupted)`:
`some (none, none, true)` for a too-short or corrupted frame, and
`some (some seq, some data, false)` on success. -/
def unframe_data (polynomial frame : List Bool) :
    Option (Option Nat × Option String × Bool) :=
  if (frame.length : Int) < (polynomial.length : Int) - 1 + 2 then
    some (none, none, true)
  else
    match check_crc frame polynomial with
    | none => none
    | some ok =>
      if !ok then some (none, none, true)
      else
        let sequence_number := bitsToNat (frame.take 2)
        let data_bits := pySliceData frame (-(polynomial.length : Int) + 1)
        some (some sequence_number, some (String.mk (bitsToChars data_bits)), false)

/-- The receiver-side state of a `DataLinkLayerNode`: the delivery counter
and the out-of-order buffer.  The Python buffer is a `dict` keyed by
sequence number; it is modelled as an insertion-ordered association list
(a Python dict never holds duplicate keys). -/
structure ReceiverState (α : Type) where
  next_frame_to_deliver : Nat
  received_frames : List (Nat × α)
deriving DecidableEq

/-- Python dict lookup / membership `k in received_frames` (a dict never
holds duplicate keys, so first-match lookup is exact). -/
def lookupKey {α : Type} (m : List (Nat × α)) (k : Nat) : Option α :=
  match m with
  | [] => none
  | p :: rest => if p.1 = k then some p.2 else lookupKey rest k

/-- Python dict removal `received_frames.pop(k)`: drop the entry with key
`k`. -/
def eraseKey {α : Type} (m : List (Nat × α)) (k : Nat) : List (Nat × α) :=
  m.filter fun p => !(p.1 == k)

/-- Python dict assignment `received_frames[k] = v`: overwrite in place if
the key exists, else append. -/
def insertKey {α : Type} (m : List (Nat × α)) (k : Nat) (v : α) : List (Nat × α) :=
  if (lookupKey m k).isSome then
    m.map fun p => if p.1 == k then (k, v) else p
  else m ++ [(k, v)]

/-- The drain loop of `process_received_frame`:
`while next_frame_to_deliver in received_frames: pop it, deliver it,
increment next_frame_to_deliver`.  Returns the new counter, the remaining
buffer and the drained payloads in delivery order.  Fuel (the buffer
length suffices, each iteration removes an entry) makes it structural. -/
def drainAux {α : Type} : Nat → Nat → List (Nat × α) →
    Nat × List (Nat × α) × List α
  | 0, next, m => (next, m, [])
  | fuel + 1, next, m =>
    match lookupKey m next with
    | some v =>
      let r := drainAux fuel (next + 1) (eraseKey m next)
      (r.1, r.2.1, v :: r.2.2)
    | none => (next, m, [])

def drainBuffered {α : Type} (next : Nat) (m : List (Nat × α)) :
    Nat × List (Nat × α) × List α :=
  drainAux m.length next m

/-- `DataLinkLayerNode.process_received_frame`: the three-way receiver
branch (in order / out of order / duplicate) plus the corrupted case.
Returns the new receiver state, the ACK to send (`none` models Python
`None`), and the payloads delivered to the network layer by this call
(the Python code reports these via log events only). -/
def process_received_frame {α : Type} :
    ReceiverState α → Option Nat → α → ReceiverState α × Option Nat × List α
  | rx, none, _ => (rx, none, [])
  | rx, some seq, data =>
    if seq = rx.next_frame_to_deliver then
      let d := drainBuffered (rx.next_frame_to_deliver + 1) rx.received_frames
      (⟨d.1, d.2.1⟩, some seq, data :: d.2.2)
    else if rx.next_frame_to_deliver < seq then
      (⟨rx.next_frame_to_deliver, insertKey rx.received_frames seq data⟩,
       if 0 < rx.next_frame_to_deliver then some (rx.next_frame_to_deliver - 1)
       else none, [])
    else
      (rx, some seq, [])

/-! The channel and the step-driven session driver
(`DataLinkSimulatorGUI.next_simulation_step`). -/

/-- The outcome of the two random draws inside `simulate_channel_gui`:
either the frame is lost (`random.random() < loss_prob`), or a single bit
at a random index is flipped (`introduce_error_flag and random.random()
< 0.3`), or the frame passes unchanged.  Quantifying over all actions
covers every behaviour of the random channel (indices out of range leave
the frame unchanged, which coincides with `deliver`). -/
inductive ChannelAction where
  | deliver : ChannelAction
  | drop : ChannelAction
  | corrupt : Nat → ChannelAction

/-- `simulate_channel_gui` with the random draws resolved by the given
action: `none` for a lost frame, otherwise the (possibly corrupted)
frame. -/
def simulate_channel_gui (a : ChannelAction) (frame : List Bool) :
    Option (List Bool) :=
  match a with
  | .drop => none
  | .deliver => some frame
  | .corrupt i => some (flipBit frame i)

/-- The state touched by `next_simulation_step`: the sender node's fields,
the receiver node's fields, the session flag, and the log of payloads
delivered to the network layer (the Python code reports deliveries via
log events; the GUI displays `simulation_data[:next_frame_to_deliver]`). -/
structure SimState where
  send_buffer : List String
  next_frame_to_send : Nat
  expected_frame_ack : Nat
  window_size : Nat
  sender_polynomial : List Bool
  receiver_polynomial : List Bool
  receiver : ReceiverState (Option String)
  is_running : Bool
  delivered_log : List (Option String)
deriving DecidableEq

/-- `DataLinkSimulatorGUI.end_simulation`: stop the session
(`is_running = False`, the "Simulation Finished" state). -/
def end_simulation (st : SimState) : SimState := { st with is_running := false }

/-- The ACK-application tail of the sending branch of
`next_simulation_step`: run `process_received_frame` on the decoded
sequence number and data, record the deliveries, and if an ACK came back
with `ack_num >= expected_frame_ack`, slide the sender window to
`ack_num + 1`. -/
def applyProcess (st : SimState) (seq_num : Option Nat)
    (data_unframed : Option String) : SimState :=
  let pr := process_received_frame st.receiver seq_num data_unframed
  let st2 := { st with receiver := pr.1,
                       delivered_log := st.delivered_log ++ pr.2.2 }
  match pr.2.1 with
  | some ack_num =>
    if st.expected_frame_ack ≤ ack_num then
      { st2 with expected_frame_ack := ack_num + 1 }
    else st2
  | none => st2

/-- The receive side of the sending branch of `next_simulation_step`:
unframe the frame that survived the channel; on a corrupted (or
malformed) frame nothing changes (the sender just logs and waits). -/
def receiveFrame (st : SimState) (received_frame : List Bool) : SimState :=
  match unframe_data st.receiver_polynomial received_frame with
  | none => st
  | some (seq_num, data_unframed, is_corrupted) =>
    if is_corrupted then st
    else applyProcess st seq_num data_unframed

/-- The sending branch of `next_simulation_step`: frame the next unit,
push it through the channel, let the receiver handle whatever arrives,
and unconditionally advance `next_frame_to_send`. -/
def sendAttempt (a : ChannelAction) (st : SimState) : SimState :=
  let data := st.send_buffer.getD st.next_frame_to_send ""
  let frame := frame_data st.sender_polynomial data st.next_frame_to_send
  let st1 :=
    match simulate_channel_gui a frame with
    | none => st
    | some received_frame => receiveFrame st received_frame
  { st1 with next_frame_to_send := st1.next_frame_to_send + 1 }

/-- `DataLinkSimulatorGUI.next_simulation_step` with the channel's random
draws resolved by `a`.  One step: if within the window and data remains,
run `sendAttempt`; else either report "waiting for ACKs" (no state
change) or end the simulation. -/
def next_simulation_step (a : ChannelAction) (st : SimState) : SimState :=
  if st.is_running = false then st
  else if st.next_frame_to_send < st.send_buffer.length ∨
      st.expected_frame_ack < st.send_buffer.length then
    if st.next_frame_to_send < st.send_buffer.length ∧
        st.next_frame_to_send < st.expected_frame_ack + st.window_size then
      sendAttempt a st
    else if st.expected_frame_ack < st.send_buffer.length then st
    else end_simulation st
  else end_simulation st

/-- `DataLinkSimulatorGUI.start_simulation` on input data: two fresh nodes
with the default polynomial `1011`, window size 3, all counters zero, and
the data buffered for sending. -/
def initSimState (data : List String) : SimState :=
  { send_buffer := data
    next_frame_to_send := 0
    expected_frame_ack := 0
    window_size := 3
    sender_polynomial := pol4
    receiver_polynomial := pol4
    receiver := ⟨0, []⟩
    is_running := true
    delivered_log := [] }

/-- The states reachable from a freshly started simulation by any sequence
of steps, under any channel behaviour. -/
inductive Reaches (data : List String) : SimState → Prop where
  | init : Reaches data (initSimState data)
  | step : ∀ (a : ChannelAction) (s : SimState), Reaches data s →
      Reaches data (next_simulation_step a s)

/-! Properties of the receiver's drain loop. -/

theorem lookupKey_eraseKey_ne {α : Type} (m : List (Nat × α)) (k j : Nat)
    (h : ¬(k = j)) : lookupKey (eraseKey m j) k = lookupKey m k := by
  induction m with
  | nil => rfl
  | cons p rest ih =>
    by_cases hpj : p.1 = j
    · rw [show eraseKey (p :: rest) j = eraseKey rest j from by
        simp [eraseKey, List.filter_cons, hpj]]
      rw [ih]
      rw [show lookupKey (p :: rest) k = lookupKey rest k from by
        simp only [lookupKey]
        rw [if_neg (fun hc => h (by rw [← hc, hpj]))]]
  
    · rw [show eraseKey (p :: rest) j = p :: eraseKey rest j from by
        simp [eraseKey, List.filter_cons, hpj]]
      show (if p.1 = k then some p.2 else lookupKey (eraseKey rest j) k) = _
      rw [ih]
      rfl

theorem length_eraseKey_lt {α : Type} (m : List (Nat × α)) (k : Nat)
    (h : (lookupKey m k).isSome = true) : (eraseKey m k).length < m.length := by
  induction m with
  | nil => simp [lookupKey] at h
  | cons p rest ih =>
    by_cases hp : p.1 = k
    · rw [show eraseKey (p :: rest) k = eraseKey rest k from by
        simp [eraseKey, List.filter_cons, hp]]
      calc (eraseKey rest k).length ≤ rest.length := List.length_filter_le _ _
        _ < (p :: rest).length := by simp
    · rw [show eraseKey (p :: rest) k = p :: eraseKey rest k from by
        simp [eraseKey, List.filter_cons, hp]]
      simp only [lookupKey, if_neg hp] at h
      simpa using ih h

/-- Full behaviour of the drain loop on sufficient fuel: the counter only
grows, it stops at the first missing key, every key it passed over was
present, and the surviving buffer is the original one with exactly the
consumed key interval removed. -/
theorem drainAux_spec {α : Type} (fuel : Nat) :
    ∀ (next : Nat) (m : List (Nat × α)), m.length ≤ fuel →
    next ≤ (drainAux fuel next m).1 ∧
    lookupKey m (drainAux fuel next m).1 = none ∧
    (∀ k, next ≤ k → k < (drainAux fuel next m).1 →
      (lookupKey m k).isSome = true) ∧
    (drainAux fuel next m).2.1 =
      m.filter (fun p =>
        !(decide (next ≤ p.1) && decide (p.1 < (drainAux fuel next m).1))) := by
  induction fuel with
  | zero =>
    intro next m hm
    have hnil : m = [] := List.length_eq_zero.mp (Nat.le_zero.mp hm)
    subst hnil
    refine ⟨le_rfl, rfl, ?_, rfl⟩
    intro k hk1 hk2
    simp only [drainAux] at hk2
    omega
  | succ fuel ih =>
    intro next m hm
    match hl : lookupKey m next with
    | none =>
      rw [show drainAux (fuel + 1) next m = (next, m, []) from by
        simp [drainAux, hl]]
      refine ⟨le_rfl, hl, ?_, ?_⟩
      · intro k hk1 hk2
        simp only at hk2
        omega
      · rw [List.filter_eq_self.mpr]
        intro p _
        have h2 : ¬(p.1 < next) ∨ ¬(next ≤ p.1) := by omega
        rcases h2 with h2 | h2
        · simp [h2]
        · simp [h2]
    | some v =>
      have hfit : (eraseKey m next).length ≤ fuel := by
        have := length_eraseKey_lt m next (by rw [hl]; rfl)
        omega
      obtain ⟨ih1, ih2, ih3, ih4⟩ := ih (next + 1) (eraseKey m next) hfit
      have hres : drainAux (fuel + 1) next m =
          ((drainAux fuel (next + 1) (eraseKey m next)).1,
           (drainAux fuel (next + 1) (eraseKey m next)).2.1,
           v :: (drainAux fuel (next + 1) (eraseKey m next)).2.2) := by
        simp [drainAux, hl]
      set R := (drainAux fuel (next + 1) (eraseKey m next)).1 with hR
      rw [hres]
      have hnextR : next < R := ih1
      refine ⟨by omega, ?_, ?_, ?_⟩
      · rw [← lookupKey_eraseKey_ne m R next (by omega)]
        exact ih2
      · intro k hk1 hk2
        by_cases hkn : k = next
        · rw [hkn, hl]; rfl
        · rw [← lookupKey_eraseKey_ne m k next hkn]
          exact ih3 k (by omega) hk2
      · rw [ih4]
        unfold eraseKey
        rw [List.filter_filter]
        apply List.filter_congr
        intro q _
        by_cases h1 : q.1 = next
        · simp [h1, hnextR]
        · by_cases h2 : next ≤ q.1
          · have h2s : next + 1 ≤ q.1 := by omega
            simp [h1, h2, h2s]
          · have h2s : ¬(next + 1 ≤ q.1) := by omega
            simp [h1, h2, h2s]

theorem drainBuffered_spec {α : Type} (next : Nat) (m : List (Nat × α)) :
    next ≤ (drainBuffered next m).1 ∧
    lookupKey m (drainBuffered next m).1 = none ∧
    (∀ k, next ≤ k → k < (drainBuffered next m).1 →
      (lookupKey m k).isSome = true) ∧
    (drainBuffered next m).2.1 =
      m.filter (fun p =>
        !(decide (next ≤ p.1) && decide (p.1 < (drainBuffered next m).1))) :=
  drainAux_spec m.length next m le_rfl

/-- Claim C3: in-order receive branch.  When the received sequence number
equals `next_frame_to_deliver`, the receiver delivers the unit (it is the
head of the delivered payloads), advances `next_frame_to_deliver`, drains
every buffered entry whose key becomes contiguous (each consumed key is
removed from the buffer, and the drain stops at the first missing key),
and returns the originally received sequence number as the ACK — not the
post-drain counter.  In particular, after out-of-order arrivals 2, 1, 0
from a fresh receiver, processing 0 leaves `next_frame_to_deliver = 3`
and an empty buffer. -/
theorem c3_in_order_receive (rx : ReceiverState String) (data : String) (seq : Nat)
    (hseq : seq = rx.next_frame_to_deliver) :
    ((process_received_frame rx (some seq) data).2.1 =
        some rx.next_frame_to_deliver ∧
      rx.next_frame_to_deliver <
        (process_received_frame rx (some seq) data).1.next_frame_to_deliver ∧
      (∀ k, rx.next_frame_to_deliver < k →
        k < (process_received_frame rx (some seq) data).1.next_frame_to_deliver →
        (lookupKey rx.received_frames k).isSome = true) ∧
      lookupKey rx.received_frames
        (process_received_frame rx (some seq) data).1.next_frame_to_deliver = none ∧
      (process_received_frame rx (some seq) data).1.received_frames =
        rx.received_frames.filter (fun p =>
          !(decide (rx.next_frame_to_deliver + 1 ≤ p.1) &&
            decide (p.1 <
              (process_received_frame rx (some seq) data).1.next_frame_to_deliver))) ∧
      (process_received_frame rx (some seq) data).2.2.head? = some data) ∧
    (process_received_frame
      (process_received_frame
        (process_received_frame (⟨0, []⟩ : ReceiverState String) (some 2) "c").1
        (some 1) "b").1
      (some 0) "a") = (⟨3, []⟩, some 0, ["a", "b", "c"]) := by
  constructor
  · subst hseq
    obtain ⟨s1, s2, s3, s4⟩ :=
      drainBuffered_spec (rx.next_frame_to_deliver + 1) rx.received_frames
    have hred : process_received_frame rx (some rx.next_frame_to_deliver) data =
        (⟨(drainBuffered (rx.next_frame_to_deliver + 1) rx.received_frames).1,
          (drainBuffered (rx.next_frame_to_deliver + 1) rx.received_frames).2.1⟩,
         some rx.next_frame_to_deliver,
         data :: (drainBuffered (rx.next_frame_to_deliver + 1)
            rx.received_frames).2.2) := by
      simp only [process_received_frame]
      simp
    rw [hred]
    refine ⟨rfl, ?_, ?_, ?_, ?_, rfl⟩
    · show rx.next_frame_to_deliver <
        (drainBuffered (rx.next_frame_to_deliver + 1) rx.received_frames).1
      omega
    · intro k hk1 hk2
      refine s3 k (by omega) ?_
      exact hk2
    · exact s2
    · exact s4
  · decide

/-- Witness for claim C3 at the concrete receiver state
`next_frame_to_deliver = 0` with `1` buffered, receiving sequence 0. -/
theorem c3_in_order_receive_witness :
    (process_received_frame (⟨0, [(1, "b")]⟩ : ReceiverState String)
      (some 0) "a").2.1 = some 0 :=
  (c3_in_order_receive ⟨0, [(1, "b")]⟩ "a" 0 rfl).1.1

/-- Claim C6 counterexample: after buffering sequence 1, processing
sequence 0 returns an ACK of 0 (the originally received sequence number),
not 1 as the claim states. -/
theorem c6_scenario_c_counterexample :
    (process_received_frame (⟨0, []⟩ : ReceiverState String) (some 1) "x").2.1 =
      none ∧
    (process_received_frame (⟨0, []⟩ : ReceiverState String) (some 1) "x").1 =
      ⟨0, [(1, "x")]⟩ ∧
    (process_received_frame (⟨0, [(1, "x")]⟩ : ReceiverState String)
      (some 0) "y").2.1 = some 0 ∧
    (process_received_frame (⟨0, [(1, "x")]⟩ : ReceiverState String)
      (some 0) "y").2.1 ≠ some 1 := by
  decide

/-- Claim C6 (amended): with the receiver at `next_frame_to_deliver = 0`,
processing sequence 1 first returns no ACK and buffers the payload under
key 1; then processing sequence 0 returns an ACK of 0 (the originally
received sequence number) after draining the buffered frame 1, leaving
`next_frame_to_deliver = 2` and an empty buffer. -/
theorem c6_scenario_c_acks :
    (process_received_frame (⟨0, []⟩ : ReceiverState String) (some 1) "x").2.1 =
      none ∧
    (process_received_frame (⟨0, []⟩ : ReceiverState String) (some 1) "x").1 =
      ⟨0, [(1, "x")]⟩ ∧
    process_received_frame (⟨0, [(1, "x")]⟩ : ReceiverState String) (some 0) "y" =
      (⟨2, []⟩, some 0, ["y", "x"]) := by
  decide

/-- Claim C7: duplicate receive branch.  For every receiver state and
sequence number strictly below `next_frame_to_deliver`,
`process_received_frame` returns the sequence number itself as the ACK
and leaves the state (counter and buffer) unchanged, delivering
nothing. -/
theorem c7_duplicate_receive (rx : ReceiverState String) (seq : Nat) (data : String)
    (h : seq < rx.next_frame_to_deliver) :
    process_received_frame rx (some seq) data = (rx, some seq, []) := by
  simp only [process_received_frame]
  rw [if_neg (by omega), if_neg (by omega)]

/-- Witness for claim C7: re-receiving sequence 1 when 0 and 1 are already
delivered. -/
theorem c7_duplicate_receive_witness :
    process_received_frame (⟨2, []⟩ : ReceiverState String) (some 1) "z" =
      (⟨2, []⟩, some 1, []) :=
  c7_duplicate_receive ⟨2, []⟩ 1 "z" (by decide)

/-- Claim C4: Scenario A.  With data `"Hi"`, polynomial `1011`, window
size 3, no loss and no corruption (every channel action is `deliver`),
three steps deliver both characters in order, stop the session
(`is_running = false`, the "Simulation Finished" state) and leave the
sender's expected-ACK counter at 2; further steps change nothing. -/
theorem c4_scenario_a :
    (next_simulation_step .deliver (next_simulation_step .deliver
      (next_simulation_step .deliver (initSimState ["H", "i"])))).delivered_log =
        [some "H", some "i"] ∧
    (next_simulation_step .deliver (next_simulation_step .deliver
      (next_simulation_step .deliver
        (initSimState ["H", "i"])))).receiver.next_frame_to_deliver = 2 ∧
    (next_simulation_step .deliver (next_simulation_step .deliver
      (next_simulation_step .deliver (initSimState ["H", "i"])))).is_running =
        false ∧
    (next_simulation_step .deliver (next_simulation_step .deliver
      (next_simulation_step .deliver (initSimState ["H", "i"])))).expected_frame_ack =
        2 ∧
    (∀ a : ChannelAction, next_simulation_step a
      (next_simulation_step .deliver (next_simulation_step .deliver
        (next_simulation_step .deliver (initSimState ["H", "i"])))) =
      (next_simulation_step .deliver (next_simulation_step .deliver
        (next_simulation_step .deliver (initSimState ["H", "i"]))))) := by
  have hstopped : ∀ (a : ChannelAction) (s : SimState), s.is_running = false →
      next_simulation_step a s = s := by
    intro a s h
    unfold next_simulation_step
    rw [if_pos h]
  refine ⟨by decide, by decide, by decide, by decide, ?_⟩
  intro a
  exact hstopped a _ (by decide)

theorem pySliceFrom_nonneg (l : List Bool) (k : Int) (h : 0 ≤ k) :
    pySliceFrom l k = l.drop k.toNat := by
  unfold pySliceFrom
  rw [if_pos h]

/-- `check_crc` cannot raise when the polynomial has length at least 2 and
the received word is at least as long as the polynomial: the remainder
slice is then the nonempty final `n-1` bits. -/
theorem check_crc_isSome (received polynomial : List Bool)
    (h2 : 2 ≤ polynomial.length) (hlen : polynomial.length ≤ received.length) :
    (check_crc received polynomial).isSome = true := by
  simp only [check_crc]
  set start : Int := (received.length : Int) - polynomial.length + 1 with hstart
  have hs0 : 0 ≤ start := by rw [hstart]; omega
  rw [pySliceFrom_nonneg _ _ hs0]
  have htn : start.toNat = received.length - polynomial.length + 1 := by
    rw [hstart]; omega
  have hne : (foldDiv polynomial received start.toNat).drop start.toNat ≠ [] := by
    intro hcon
    have hl := congrArg List.length hcon
    rw [List.length_drop, length_foldDiv, List.length_nil] at hl
    omega
  rw [if_neg hne]
  rfl

/-- Claim C10 counterexample: `generate_crc` performs no configuration
validation.  On the empty payload with the default polynomial it returns
the checksum `000`, and with a length-1 polynomial it returns the empty
checksum — it never fails with an `InvalidConfiguration` error (no such
error exists in the code). -/
theorem c10_invalid_configuration_counterexample :
    generate_crc [] pol4 = [false, false, false] ∧
    generate_crc [true, false, true] [true] = [] := by
  decide

/-- Claim C10 (amended): `generate_crc` does not validate its inputs.
On an empty payload it returns `n-1` zero bits (the zero-padded tail,
untouched since the division loop runs zero times), and for a polynomial
of length at most 1 it returns the empty bitstring; in neither case does
it fail. -/
theorem c10_no_validation (data polynomial : List Bool) :
    generate_crc [] polynomial = List.replicate (polynomial.length - 1) false ∧
    (polynomial.length ≤ 1 → generate_crc data polynomial = []) := by
  constructor
  · unfold generate_crc
    simp [foldDiv]
  · intro h
    have h0 : polynomial.length - 1 = 0 := by omega
    simp only [generate_crc, h0, List.replicate_zero, List.append_nil]
    exact List.drop_eq_nil_of_le (by rw [length_foldDiv])

/-- Witness for claim C10 at the length-1 polynomial `1`. -/
theorem c10_no_validation_witness :
    generate_crc [] [true] = List.replicate 0 false ∧
    generate_crc [true, false] [true] = [] :=
  ⟨(c10_no_validation [true, false] [true]).1,
   (c10_no_validation [true, false] [true]).2 (by decide)⟩

/-- Claim C9 counterexample: the returned value does NOT distinguish the
"too short" and "checksum failed" cases — both yield exactly
`(None, None, True)` (they differ only in the log message).  `[1]` is
shorter than `width + n - 1 = 5`; `[1,0,0,0,0]` is long enough but fails
the checksum; the outcomes are equal. -/
theorem c9_decode_contract_counterexample :
    unframe_data pol4 [true] = some (none, none, true) ∧
    unframe_data pol4 [true, false, false, false, false] =
      some (none, none, true) ∧
    ([true] : List Bool).length < 5 ∧
    ¬(([true, false, false, false, false] : List Bool).length < 5) := by
  decide

/-- Claim C9 (amended): for every polynomial of length at least 2,
`unframe_data` never raises (total, `isSome`); a frame shorter than
`width + (n-1) = n + 1` yields `(None, None, True)` with no sequence
number or data extracted; a long-enough frame failing `check_crc` yields
the same `(None, None, True)`; and a frame passing `check_crc` yields
`(some seq, some data, False)`.  Success is distinguished from failure,
but the two failure cases yield identical values. -/
theorem c9_decode_contract (polynomial frame : List Bool)
    (h2 : 2 ≤ polynomial.length) :
    (unframe_data polynomial frame).isSome = true ∧
    ((frame.length : Int) < (polynomial.length : Int) - 1 + 2 →
      unframe_data polynomial frame = some (none, none, true)) ∧
    (∀ ok, check_crc frame polynomial = some ok → ok = false →
      unframe_data polynomial frame = some (none, none, true)) ∧
    (∀ ok, check_crc frame polynomial = some ok → ok = true →
      ¬((frame.length : Int) < (polynomial.length : Int) - 1 + 2) →
      ∃ s d, unframe_data polynomial frame = some (some s, some d, false)) := by
  by_cases hshort : (frame.length : Int) < (polynomial.length : Int) - 1 + 2
  · have hu : unframe_data polynomial frame = some (none, none, true) := by
      unfold unframe_data
      rw [if_pos hshort]
    exact ⟨by rw [hu]; rfl, fun _ => hu, fun ok _ _ => hu,
      fun ok _ _ hnot => absurd hshort hnot⟩
  · have hpl : polynomial.length ≤ frame.length := by omega
    have hsome := check_crc_isSome frame polynomial h2 hpl
    obtain ⟨ok0, hok0⟩ := Option.isSome_iff_exists.mp hsome
    cases ok0 with
    | false =>
      have hu : unframe_data polynomial frame = some (none, none, true) := by
        unfold unframe_data
        rw [if_neg hshort, hok0]
        simp
      refine ⟨by rw [hu]; rfl, fun hlt => absurd hlt hshort,
        fun ok _ _ => hu, fun ok hok htrue _ => ?_⟩
      rw [hok0] at hok
      rw [htrue] at hok
      exact absurd (Option.some.inj hok) (by simp)
    | true =>
      have hu : unframe_data polynomial frame =
          some (some (bitsToNat (frame.take 2)),
            some (String.mk (bitsToChars
              (pySliceData frame (-(polynomial.length : Int) + 1)))), false) := by
        unfold unframe_data
        rw [if_neg hshort, hok0]
        simp
      refine ⟨by rw [hu]; rfl, fun hlt => absurd hlt hshort,
        fun ok hok hfalse => ?_, fun ok _ _ _ => ⟨_, _, hu⟩⟩
      rw [hok0] at hok
      rw [hfalse] at hok
      exact absurd (Option.some.inj hok) (by simp)

/-- Witness for claim C9: decoding the one-bit frame `[1]` under the
default polynomial returns (does not raise). -/
theorem c9_decode_contract_witness :
    (unframe_data pol4 [true]).isSome = true :=
  (c9_decode_contract pol4 [true] (by decide)).1

/-! Lemmas for the sender-window and sequence-range invariants. -/

/-- Every ACK value returned by the receiver is at most the received
sequence number: the in-order and duplicate branches echo `seq`, the
out-of-order branch returns `next_frame_to_deliver - 1 < seq`. -/
theorem process_ack_le_seq {α : Type} (rx : ReceiverState α) (seq : Nat) (data : α)
    (a : Nat) (h : (process_received_frame rx (some seq) data).2.1 = some a) :
    a ≤ seq := by
  by_cases h1 : seq = rx.next_frame_to_deliver
  · have hr : (process_received_frame rx (some seq) data).2.1 = some seq := by
      simp only [process_received_frame]
      rw [if_pos h1]
    rw [hr] at h
    have := Option.some.inj h
    omega
  · by_cases h2 : rx.next_frame_to_deliver < seq
    · by_cases h3 : 0 < rx.next_frame_to_deliver
      · have hr : (process_received_frame rx (some seq) data).2.1 =
            some (rx.next_frame_to_deliver - 1) := by
          simp only [process_received_frame]
          rw [if_neg h1, if_pos h2, if_pos h3]
        rw [hr] at h
        have := Option.some.inj h
        omega
      · have hr : (process_received_frame rx (some seq) data).2.1 = none := by
          simp only [process_received_frame]
          rw [if_neg h1, if_pos h2, if_neg h3]
        rw [hr] at h
        exact absurd h (by simp)
    · have hr : (process_received_frame rx (some seq) data).2.1 = some seq := by
        simp only [process_received_frame]
        rw [if_neg h1, if_neg h2]
      rw [hr] at h
      have := Option.some.inj h
      omega

theorem lookupKey_some_mem {α : Type} (m : List (Nat × α)) (k : Nat) (v : α)
    (h : lookupKey m k = some v) : (k, v) ∈ m := by
  induction m with
  | nil => simp [lookupKey] at h
  | cons p rest ih =>
    by_cases hp : p.1 = k
    · simp only [lookupKey, if_pos hp] at h
      have hv := Option.some.inj h
      have hpe : p = (k, v) := by
        rw [← hp, ← hv]
      rw [hpe]
      exact List.mem_cons_self _ _
    · simp only [lookupKey, if_neg hp] at h
      exact List.mem_cons_of_mem _ (ih h)

theorem mem_of_mem_eraseKey {α : Type} (m : List (Nat × α)) (k : Nat)
    (p : Nat × α) (h : p ∈ eraseKey m k) : p ∈ m :=
  (List.mem_filter.mp h).1

theorem mem_insertKey {α : Type} (m : List (Nat × α)) (k : Nat) (v : α)
    (p : Nat × α) (h : p ∈ insertKey m k v) : p ∈ m ∨ p.1 = k := by
  unfold insertKey at h
  split at h
  · obtain ⟨q, hq, hqe⟩ := List.mem_map.mp h
    by_cases hqk : q.1 = k
    · right
      have h2 : p = (k, v) := by
        rw [← hqe]
        simp [hqk]
      rw [h2]
    · left
      have h2 : p = q := by
        rw [← hqe]
        simp [hqk]
      rw [h2]
      exact hq
  · rcases List.mem_append.mp h with h1 | h1
    · left; exact h1
    · right
      simp only [List.mem_singleton] at h1
      rw [h1]

/-- The drain loop keeps the counter at most 4 as long as every buffered
key is at most 3, and never adds buffer entries. -/
theorem drainAux_bound {α : Type} (fuel : Nat) :
    ∀ (next : Nat) (m : List (Nat × α)),
    (∀ p ∈ m, p.1 ≤ 3) → next ≤ 4 →
    (drainAux fuel next m).1 ≤ 4 ∧
    ∀ p ∈ (drainAux fuel next m).2.1, p.1 ≤ 3 := by
  induction fuel with
  | zero => intro next m hkeys hnext; exact ⟨hnext, hkeys⟩
  | succ fuel ih =>
    intro next m hkeys hnext
    match hl : lookupKey m next with
    | none =>
      rw [show drainAux (fuel + 1) next m = (next, m, []) from by
        simp [drainAux, hl]]
      exact ⟨hnext, hkeys⟩
    | some v =>
      have hmem := lookupKey_some_mem m next v hl
      have hnext3 : next ≤ 3 := hkeys (next, v) hmem
      have hrec := ih (next + 1) (eraseKey m next)
        (fun p hp => hkeys p (mem_of_mem_eraseKey m next p hp)) (by omega)
      rw [show drainAux (fuel + 1) next m =
          ((drainAux fuel (next + 1) (eraseKey m next)).1,
           (drainAux fuel (next + 1) (eraseKey m next)).2.1,
           v :: (drainAux fuel (next + 1) (eraseKey m next)).2.2) from by
        simp [drainAux, hl]]
      exact hrec

/-- Processing a sequence number at most 3 keeps the receiver's counter at
most 4 and all buffered keys at most 3. -/
theorem process_receiver_bounds {α : Type} (rx : ReceiverState α) (seq : Nat)
    (data : α) (hseq : seq ≤ 3) (hnd : rx.next_frame_to_deliver ≤ 4)
    (hkeys : ∀ p ∈ rx.received_frames, p.1 ≤ 3) :
    (process_received_frame rx (some seq) data).1.next_frame_to_deliver ≤ 4 ∧
    ∀ p ∈ (process_received_frame rx (some seq) data).1.received_frames,
      p.1 ≤ 3 := by
  by_cases h1 : seq = rx.next_frame_to_deliver
  · have hr : (process_received_frame rx (some seq) data).1 =
        ⟨(drainBuffered (rx.next_frame_to_deliver + 1) rx.received_frames).1,
         (drainBuffered (rx.next_frame_to_deliver + 1) rx.received_frames).2.1⟩ := by
      simp only [process_received_frame]
      rw [if_pos h1]
    rw [hr]
    exact drainAux_bound rx.received_frames.length (rx.next_frame_to_deliver + 1)
      rx.received_frames hkeys (by omega)
  · by_cases h2 : rx.next_frame_to_deliver < seq
    · have hr : (process_received_frame rx (some seq) data).1 =
          ⟨rx.next_frame_to_deliver, insertKey rx.received_frames seq data⟩ := by
        simp only [process_received_frame]
        rw [if_neg h1, if_pos h2]
      rw [hr]
      refine ⟨hnd, ?_⟩
      intro p hp
      rcases mem_insertKey rx.received_frames seq data p hp with hm | hm
      · exact hkeys p hm
      · omega
    · have hr : (process_received_frame rx (some seq) data).1 = rx := by
        simp only [process_received_frame]
        rw [if_neg h1, if_neg h2]
      rw [hr]
      exact ⟨hnd, hkeys⟩

theorem length_generate_crc (d p : List Bool) :
    (generate_crc d p).length = p.length - 1 := by
  simp only [generate_crc]
  rw [List.length_drop, length_foldDiv, List.length_append, List.length_replicate]
  omega

theorem seqbits_facts (m : Nat) (h : m < 4) :
    (zfill 2 (pyBin m)).length = 2 ∧ bitsToNat (zfill 2 (pyBin m)) = m := by
  interval_cases m
  · exact ⟨by decide, by decide⟩
  · exact ⟨by decide, by decide⟩
  · exact ⟨by decide, by decide⟩
  · exact ⟨by decide, by decide⟩

theorem take_append_eq (l1 l2 : List Bool) (n : Nat) (h : l1.length = n) :
    (l1 ++ l2).take n = l1 := by
  subst h
  exact List.take_left _ _

/-- A frame of the form `payload ++ generate_crc payload 1011` decodes
without corruption. -/
theorem unframe_payload_crc (payload : List Bool) (hp2 : 2 ≤ payload.length) :
    unframe_data pol4 (payload ++ generate_crc payload pol4) =
      some (some (bitsToNat ((payload ++ generate_crc payload pol4).take 2)),
        some (String.mk (bitsToChars (pySliceData
          (payload ++ generate_crc payload pol4) (-(pol4.length : Int) + 1)))),
        false) := by
  have hlen : (payload ++ generate_crc payload pol4).length = payload.length + 3 := by
    rw [List.length_append, length_generate_crc, show pol4.length - 1 = 3 from rfl]
  have hchk := crc_roundtrip payload pol4 (by decide)
  have hshort : ¬(((payload ++ generate_crc payload pol4).length : Int) <
      (pol4.length : Int) - 1 + 2) := by
    rw [hlen, show pol4.length = 4 from rfl]
    push_cast
    omega
  unfold unframe_data
  rw [if_neg hshort, hchk]
  rfl

/-- Decoding an encoded frame recovers the sequence number modulo 4 (the
two-bit field) and signals no corruption. -/
theorem unframe_frame_data (d : String) (seq : Nat) :
    ∃ str, unframe_data pol4 (frame_data pol4 d seq) =
      some (some (seq % 4), some str, false) := by
  obtain ⟨hlen2, hval⟩ := seqbits_facts (seq % 4) (Nat.mod_lt _ (by omega))
  have h2 : 2 ≤ (zfill 2 (pyBin (seq % 4)) ++ str_to_bits d).length := by
    rw [List.length_append, hlen2]
    omega
  have htake : ((zfill 2 (pyBin (seq % 4)) ++ str_to_bits d) ++
      generate_crc (zfill 2 (pyBin (seq % 4)) ++ str_to_bits d) pol4).take 2 =
      zfill 2 (pyBin (seq % 4)) := by
    rw [List.append_assoc]
    exact take_append_eq _ _ 2 hlen2
  have hres := unframe_payload_crc (zfill 2 (pyBin (seq % 4)) ++ str_to_bits d) h2
  rw [htake, hval] at hres
  exact ⟨_, hres⟩

/-- A single-bit-flipped encoded frame is reported as corrupted
(`(None, None, True)`) by `unframe_data`. -/
theorem unframe_flip_frame (d : String) (seq i : Nat)
    (hi : i < (frame_data pol4 d seq).length) :
    unframe_data pol4 (flipBit (frame_data pol4 d seq) i) =
      some (none, none, true) := by
  have hfr : frame_data pol4 d seq =
      (zfill 2 (pyBin (seq % 4)) ++ str_to_bits d) ++
        generate_crc (zfill 2 (pyBin (seq % 4)) ++ str_to_bits d) pol4 := rfl
  have hlen : (frame_data pol4 d seq).length =
      (zfill 2 (pyBin (seq % 4)) ++ str_to_bits d).length + 3 := by
    rw [hfr, List.length_append, length_generate_crc,
      show pol4.length - 1 = 3 from rfl]
  have h2 : 2 ≤ (zfill 2 (pyBin (seq % 4)) ++ str_to_bits d).length := by
    rw [List.length_append, (seqbits_facts (seq % 4) (Nat.mod_lt _ (by omega))).1]
    omega
  have hchk : check_crc (frame_data pol4 d seq) pol4 = some true := by
    rw [hfr]
    exact crc_roundtrip _ pol4 (by decide)
  have hflip := singleflip_not_crc (frame_data pol4 d seq) i (by omega) hi hchk
  have hshort : ¬(((flipBit (frame_data pol4 d seq) i).length : Int) <
      (pol4.length : Int) - 1 + 2) := by
    rw [flipBit_length, hlen, show pol4.length = 4 from rfl]
    push_cast
    omega
  unfold unframe_data
  rw [if_neg hshort, hflip]
  rfl

/-- The inductive invariant of the simulation: both nodes carry the default
polynomial, the sender window invariant
`expected_frame_ack <= next_frame_to_send <= expected_frame_ack + window_size`,
and the 2-bit sequence-field bounds (receiver counter at most 4, buffered
keys at most 3, sender window base at most 4). -/
def SimInv (s : SimState) : Prop :=
  s.sender_polynomial = pol4 ∧
  s.receiver_polynomial = pol4 ∧
  s.expected_frame_ack ≤ s.next_frame_to_send ∧
  s.next_frame_to_send ≤ s.expected_frame_ack + s.window_size ∧
  s.receiver.next_frame_to_deliver ≤ 4 ∧
  (∀ p ∈ s.receiver.received_frames, p.1 ≤ 3) ∧
  s.expected_frame_ack ≤ 4

theorem simInv_init (data : List String) : SimInv (initSimState data) := by
  refine ⟨rfl, rfl, le_rfl, ?_, ?_, ?_, ?_⟩
  · show (0 : Nat) ≤ 0 + 3
    omega
  · show (0 : Nat) ≤ 4
    omega
  · intro p hp
    simp [initSimState] at hp
  · show (0 : Nat) ≤ 4
    omega

/-- Effect of the ACK-application tail on the invariant-relevant fields. -/
theorem applyProcess_facts (st : SimState) (q : Nat) (d : Option String)
    (hq3 : q ≤ 3) (hC : st.receiver.next_frame_to_deliver ≤ 4)
    (hD : ∀ p ∈ st.receiver.received_frames, p.1 ≤ 3) :
    (applyProcess st (some q) d).send_buffer = st.send_buffer ∧
    (applyProcess st (some q) d).next_frame_to_send = st.next_frame_to_send ∧
    (applyProcess st (some q) d).window_size = st.window_size ∧
    (applyProcess st (some q) d).sender_polynomial = st.sender_polynomial ∧
    (applyProcess st (some q) d).receiver_polynomial = st.receiver_polynomial ∧
    st.expected_frame_ack ≤ (applyProcess st (some q) d).expected_frame_ack ∧
    ((applyProcess st (some q) d).expected_frame_ack = st.expected_frame_ack ∨
      (applyProcess st (some q) d).expected_frame_ack ≤ q + 1) ∧
    (applyProcess st (some q) d).receiver.next_frame_to_deliver ≤ 4 ∧
    (∀ p ∈ (applyProcess st (some q) d).receiver.received_frames, p.1 ≤ 3) := by
  obtain ⟨hb1, hb2⟩ := process_receiver_bounds st.receiver q d hq3 hC hD
  rcases hack : (process_received_frame st.receiver (some q) d).2.1 with _ | ack
  · have hr : applyProcess st (some q) d =
        { st with receiver := (process_received_frame st.receiver (some q) d).1,
                  delivered_log := st.delivered_log ++
                    (process_received_frame st.receiver (some q) d).2.2 } := by
      simp only [applyProcess, hack]
    rw [hr]
    exact ⟨rfl, rfl, rfl, rfl, rfl, le_rfl, Or.inl rfl, hb1, hb2⟩
  · have hle := process_ack_le_seq st.receiver q d ack hack
    by_cases hge : st.expected_frame_ack ≤ ack
    · have hr : applyProcess st (some q) d =
          { st with receiver := (process_received_frame st.receiver (some q) d).1,
                    delivered_log := st.delivered_log ++
                      (process_received_frame st.receiver (some q) d).2.2,
                    expected_frame_ack := ack + 1 } := by
        simp only [applyProcess, hack]
        rw [if_pos hge]
      rw [hr]
      refine ⟨rfl, rfl, rfl, rfl, rfl, ?_, Or.inr ?_, hb1, hb2⟩
      · show st.expected_frame_ack ≤ ack + 1
        omega
      · show ack + 1 ≤ q + 1
        omega
    · have hr : applyProcess st (some q) d =
          { st with receiver := (process_received_frame st.receiver (some q) d).1,
                    delivered_log := st.delivered_log ++
                      (process_received_frame st.receiver (some q) d).2.2 } := by
        simp only [applyProcess, hack]
        rw [if_neg hge]
      rw [hr]
      exact ⟨rfl, rfl, rfl, rfl, rfl, le_rfl, Or.inl rfl, hb1, hb2⟩

/-- A no-delivery step that only advances `next_frame_to_send` preserves
the invariant (the window guard admits the increment). -/
theorem simInv_skip_step (s : SimState) (h : SimInv s)
    (hsend2 : s.next_frame_to_send < s.expected_frame_ack + s.window_size) :
    SimInv { s with next_frame_to_send := s.next_frame_to_send + 1 } := by
  obtain ⟨hsp, hrp, hA, hB, hC, hD, hE⟩ := h
  refine ⟨hsp, hrp, ?_, ?_, hC, hD, hE⟩
  · show s.expected_frame_ack ≤ s.next_frame_to_send + 1
    omega
  · show s.next_frame_to_send + 1 ≤ s.expected_frame_ack + s.window_size
    omega

/-- A successfully processed frame followed by the `next_frame_to_send`
increment preserves the invariant: the decoded sequence number is
`next_frame_to_send % 4`, so any applied ACK is at most
`next_frame_to_send` and the window stays well-formed. -/
theorem simInv_deliver_step (s : SimState) (h : SimInv s)
    (hsend2 : s.next_frame_to_send < s.expected_frame_ack + s.window_size)
    (str : String) :
    SimInv { applyProcess s (some (s.next_frame_to_send % 4)) (some str) with
      next_frame_to_send :=
        (applyProcess s (some (s.next_frame_to_send % 4))
          (some str)).next_frame_to_send + 1 } := by
  obtain ⟨hsp, hrp, hA, hB, hC, hD, hE⟩ := h
  obtain ⟨f1, f2, f3, f4, f5, f6, f7, f8, f9⟩ :=
    applyProcess_facts s (s.next_frame_to_send % 4) (some str) (by omega) hC hD
  have hq : s.next_frame_to_send % 4 ≤ s.next_frame_to_send := Nat.mod_le _ _
  have hq3 : s.next_frame_to_send % 4 ≤ 3 := by omega
  refine ⟨?_, ?_, ?_, ?_, f8, f9, ?_⟩
  · show (applyProcess s (some (s.next_frame_to_send % 4))
      (some str)).sender_polynomial = pol4
    rw [f4, hsp]
  · show (applyProcess s (some (s.next_frame_to_send % 4))
      (some str)).receiver_polynomial = pol4
    rw [f5, hrp]
  · show (applyProcess s (some (s.next_frame_to_send % 4))
        (some str)).expected_frame_ack ≤
      (applyProcess s (some (s.next_frame_to_send % 4))
        (some str)).next_frame_to_send + 1
    rw [f2]
    rcases f7 with f7 | f7 <;> omega
  · show (applyProcess s (some (s.next_frame_to_send % 4))
        (some str)).next_frame_to_send + 1 ≤
      (applyProcess s (some (s.next_frame_to_send % 4))
        (some str)).expected_frame_ack +
      (applyProcess s (some (s.next_frame_to_send % 4))
        (some str)).window_size
    rw [f2, f3]
    omega
  · show (applyProcess s (some (s.next_frame_to_send % 4))
      (some str)).expected_frame_ack ≤ 4
    rcases f7 with f7 | f7 <;> omega

/-- One simulation step preserves the invariant, for every channel
behaviour: a dropped frame only advances `next_frame_to_send` (allowed by
the window guard), a delivered frame decodes to `next_frame_to_send % 4`
so any applied ACK is at most `next_frame_to_send`, and a corrupted frame
is rejected by the CRC so nothing but `next_frame_to_send` changes. -/
theorem simInv_step (a : ChannelAction) (s : SimState) (h : SimInv s) :
    SimInv (next_simulation_step a s) := by
  unfold next_simulation_step
  by_cases hrun : s.is_running = false
  · rw [if_pos hrun]
    exact h
  rw [if_neg hrun]
  by_cases houter : s.next_frame_to_send < s.send_buffer.length ∨
      s.expected_frame_ack < s.send_buffer.length
  swap
  · rw [if_neg houter]
    exact h
  rw [if_pos houter]
  by_cases hsend : s.next_frame_to_send < s.send_buffer.length ∧
      s.next_frame_to_send < s.expected_frame_ack + s.window_size
  swap
  · rw [if_neg hsend]
    by_cases hwait : s.expected_frame_ack < s.send_buffer.length
    · rw [if_pos hwait]
      exact h
    · rw [if_neg hwait]
      exact h
  rw [if_pos hsend]
  obtain ⟨hsp, hrp, hA, hB, hC, hD, hE⟩ := h
  cases a with
  | drop =>
    have hsa : sendAttempt .drop s =
        { s with next_frame_to_send := s.next_frame_to_send + 1 } := by
      simp only [sendAttempt, simulate_channel_gui]
    rw [hsa]
    exact simInv_skip_step s ⟨hsp, hrp, hA, hB, hC, hD, hE⟩ hsend.2
  | deliver =>
    obtain ⟨str, hdec⟩ := unframe_frame_data
      (s.send_buffer.getD s.next_frame_to_send "") s.next_frame_to_send
    have hsa : sendAttempt .deliver s =
        { applyProcess s (some (s.next_frame_to_send % 4)) (some str) with
          next_frame_to_send :=
            (applyProcess s (some (s.next_frame_to_send % 4))
              (some str)).next_frame_to_send + 1 } := by
      simp only [sendAttempt, simulate_channel_gui, receiveFrame]
      rw [hsp, hrp, hdec]
      rfl
    rw [hsa]
    exact simInv_deliver_step s ⟨hsp, hrp, hA, hB, hC, hD, hE⟩ hsend.2 str
  | corrupt i =>
    by_cases hioob : (frame_data pol4
        (s.send_buffer.getD s.next_frame_to_send "") s.next_frame_to_send).length ≤ i
    · obtain ⟨str, hdec⟩ := unframe_frame_data
        (s.send_buffer.getD s.next_frame_to_send "") s.next_frame_to_send
      have hsa : sendAttempt (.corrupt i) s =
          { applyProcess s (some (s.next_frame_to_send % 4)) (some str) with
            next_frame_to_send :=
              (applyProcess s (some (s.next_frame_to_send % 4))
                (some str)).next_frame_to_send + 1 } := by
        simp only [sendAttempt, simulate_channel_gui, receiveFrame]
        rw [hsp, hrp, flipBit_oob _ _ hioob, hdec]
        rfl
      rw [hsa]
      exact simInv_deliver_step s ⟨hsp, hrp, hA, hB, hC, hD, hE⟩ hsend.2 str
    · have hsa : sendAttempt (.corrupt i) s =
          { s with next_frame_to_send := s.next_frame_to_send + 1 } := by
        simp only [sendAttempt, simulate_channel_gui, receiveFrame]
        rw [hsp, hrp, unframe_flip_frame _ _ i (by omega)]
        simp
        exact ⟨hsp, hrp⟩
      rw [hsa]
      exact simInv_skip_step s ⟨hsp, hrp, hA, hB, hC, hD, hE⟩ hsend.2

/-- Every reachable simulation state satisfies the invariant. -/
theorem reaches_simInv (data : List String) (s : SimState)
    (h : Reaches data s) : SimInv s := by
  induction h with
  | init => exact simInv_init data
  | step a s2 _ ih => exact simInv_step a s2 ih

theorem bitsToNat_lt (l : List Bool) : bitsToNat l < 2 ^ l.length := by
  suffices h : ∀ acc, l.foldl (fun acc b => 2 * acc + (if b then 1 else 0)) acc <
      (acc + 1) * 2 ^ l.length by
    have h0 := h 0
    simpa [bitsToNat] using h0
  induction l with
  | nil =>
    intro acc
    simp only [List.foldl_nil, List.length_nil, pow_zero, Nat.mul_one]
    omega
  | cons b t ih =>
    intro acc
    simp only [List.foldl_cons, List.length_cons]
    calc t.foldl (fun acc b => 2 * acc + (if b then 1 else 0))
          (2 * acc + (if b then 1 else 0)) <
        (2 * acc + (if b then 1 else 0) + 1) * 2 ^ t.length := ih _
      _ ≤ (2 * acc + 2) * 2 ^ t.length := by
          have hb : (if b then 1 else 0) ≤ 1 := by split <;> omega
          exact Nat.mul_le_mul_right _ (by omega)
      _ = (acc + 1) * 2 ^ (t.length + 1) := by
          rw [pow_succ]
          ring

/-- Every sequence number produced by a successful `unframe_data` is the
value of a two-bit field, i.e. at most 3. -/
theorem unframe_seq_le_3 (poly frame : List Bool) (s : Nat) (d : Option String)
    (c : Bool) (h : unframe_data poly frame = some (some s, d, c)) : s ≤ 3 := by
  unfold unframe_data at h
  split at h
  · simp at h
  · rcases hcc : check_crc frame poly with _ | ok
    · rw [hcc] at h
      simp at h
    · rw [hcc] at h
      cases ok with
      | false => simp at h
      | true =>
        simp only [Bool.not_true, Bool.false_eq_true, if_false,
          Option.some.injEq, Prod.mk.injEq] at h
        have hs : s = bitsToNat (frame.take 2) := h.1.symm
        have hb := bitsToNat_lt (frame.take 2)
        have hl : (frame.take 2).length ≤ 2 := by
          rw [List.length_take]
          omega
        have hp : (2 : Nat) ^ (frame.take 2).length ≤ 2 ^ 2 :=
          Nat.pow_le_pow_right (by omega) hl
        omega

/-- Claim C5: sender window invariant.  In every state reachable by any
sequence of steps (under any channel behaviour) from the freshly started
simulation (`expected_frame_ack = next_frame_to_send = 0`),
`expected_frame_ack <= next_frame_to_send <= expected_frame_ack +
window_size` holds. -/
theorem c5_sender_window_invariant (data : List String) (s : SimState)
    (h : Reaches data s) :
    s.expected_frame_ack ≤ s.next_frame_to_send ∧
    s.next_frame_to_send ≤ s.expected_frame_ack + s.window_size := by
  obtain ⟨_, _, hA, hB, _, _, _⟩ := reaches_simInv data s h
  exact ⟨hA, hB⟩

/-- Witness for claim C5 after one delivered step from data `["H"]`. -/
theorem c5_sender_window_invariant_witness :
    (next_simulation_step .deliver (initSimState ["H"])).expected_frame_ack ≤
      (next_simulation_step .deliver (initSimState ["H"])).next_frame_to_send ∧
    (next_simulation_step .deliver (initSimState ["H"])).next_frame_to_send ≤
      (next_simulation_step .deliver (initSimState ["H"])).expected_frame_ack +
      (next_simulation_step .deliver (initSimState ["H"])).window_size :=
  c5_sender_window_invariant ["H"] _
    (Reaches.step .deliver _ (Reaches.init))

/-- Claim C8: implicit 2-bit sequence-field bound.  Every sequence number
produced by `unframe_data` is in 0..3; consequently in every reachable
state `next_frame_to_deliver <= 4` and `expected_frame_ack <= 4`, and a
run whose data has more than 4 units never satisfies the completion
predicate `expected_frame_ack >= len(send_buffer)`. -/
theorem c8_sequence_field_bound :
    (∀ (poly frame : List Bool) (s : Nat) (d : Option String) (c : Bool),
      unframe_data poly frame = some (some s, d, c) → s ≤ 3) ∧
    (∀ (data : List String) (s : SimState), Reaches data s →
      s.receiver.next_frame_to_deliver ≤ 4 ∧
      s.expected_frame_ack ≤ 4 ∧
      (4 < s.send_buffer.length →
        ¬(s.send_buffer.length ≤ s.expected_frame_ack))) := by
  constructor
  · exact fun poly frame s d c h => unframe_seq_le_3 poly frame s d c h
  · intro data s h
    obtain ⟨_, _, _, _, hC, _, hE⟩ := reaches_simInv data s h
    exact ⟨hC, hE, by omega⟩

/-- Witness for claim C8 at the one-step-reachable state from five data
units (completion is unreachable: the window base stays at most 4 while
five ACKs would be needed). -/
theorem c8_sequence_field_bound_witness :
    (next_simulation_step .deliver
      (initSimState ["a", "b", "c", "d", "e"])).receiver.next_frame_to_deliver ≤ 4 ∧
    (next_simulation_step .deliver
      (initSimState ["a", "b", "c", "d", "e"])).expected_frame_ack ≤ 4 ∧
    (4 < (next_simulation_step .deliver
        (initSimState ["a", "b", "c", "d", "e"])).send_buffer.length →
      ¬((next_simulation_step .deliver
          (initSimState ["a", "b", "c", "d", "e"])).send_buffer.length ≤
        (next_simulation_step .deliver
          (initSimState ["a", "b", "c", "d", "e"])).expected_frame_ack)) :=
  c8_sequence_field_bound.2 ["a", "b", "c", "d", "e"] _
    (Reaches.step .deliver _ (Reaches.init))
